import Mathlib

/-!
Verification of `changetracker.py`

A shallow embedding of the snapshot-reconciliation core of the
`guckstift/changetracker` repository (single source file
`src/changetracker.py`), together with proofs about its behaviour.

Modelling conventions:

* Python dictionaries (`self.allitems`, `addeditems`, `removeditems`,
  `changeditems`, `moveditems`) are modelled as association lists
  `List (String × α)` with insertion-order iteration, first-key lookup,
  in-place replacement on key collision and append on fresh keys — the
  semantics of (ordered) Python dicts with unique keys.  `del d[k]` is
  modelled by `derase`, which drops every binding of `k`; on dicts with
  unique keys (the only ones Python ever builds) this coincides with
  the Python `del`.
* The filesystem visible to one tick is a fixed map from (relative,
  slash-normalised) path to an entry carrying the probed type
  (`os.path.islink` / `isfile` / `isdir`), the md5 digest of the file
  content (`hashlib.md5` over the streamed blocks, modelled as an
  abstract `Nat`), and `os.stat(...).st_mtime` (modelled as an `Int`).
  A path on
  which every probe fails (the "vanished between enumeration and
  probing" race) is simply absent from the map.
* The enumeration produced by `recursive_list` (after the
  `itempath[len(self.path)+1:]` prefix strip and the backslash
  normalisation of `ChangeTracker.update`) is modelled as the list of
  relative paths handed to the scan loop.
* Python 2 comparison `newmodtime > self.modtime` where `self.modtime`
  may be `None` is modelled by `py2LtOpt`: in Python 2 every number
  compares greater than `None`.
* An uncaught exception escaping `ChangeTracker.update` is modelled by
  the tick returning `none`.
* The back reference `TrackedItem.ct` to the owning tracker is modelled
  as an `Option Nat` (a tracker identity, `none` once stripped by
  `savestate`).
-/

set_option autoImplicit false

namespace Changetracker

/-- Result of the `os.path.islink` / `isfile` / `isdir` probes:
`"link"`, `"file"` or `"dir"` in the Python source.  The Python value
`None` ("absent") is represented by `Option.none` at use sites. -/
inductive FType where
  | link : FType
  | file : FType
  | dir : FType
deriving DecidableEq, Repr

/-- One filesystem entry as observed by a tick: probe result, md5 digest
of the content (meaningful for files) and `st_mtime`. -/
structure FsEntry where
  ftype : FType
  hash : Nat
  mtime : Int
deriving DecidableEq, Repr

/-- The filesystem state a tick runs against: a finite map path ↦ entry.
A path absent from the map fails all probes. -/
abbrev Fs := List (String × FsEntry)

/-- First-occurrence lookup in an association list (Python `d[k]` /
`k in d`). -/
def dlookup {α : Type} : List (String × α) → String → Option α
  | [], _ => none
  | kv :: rest, k => if kv.1 = k then some kv.2 else dlookup rest k

/-- Python `d[k] = v`: replace the binding in place if the key is
present, append otherwise. -/
def dinsert {α : Type} : List (String × α) → String → α → List (String × α)
  | [], k, v => [(k, v)]
  | kv :: rest, k, v => if kv.1 = k then (k, v) :: rest else kv :: dinsert rest k v

/-- Python `del d[k]` (on unique-key dicts): drop the binding of `k`. -/
def derase {α : Type} (d : List (String × α)) (k : String) : List (String × α) :=
  d.filter (fun kv => decide (kv.1 ≠ k))

/-- Python `d.values()` in iteration (insertion) order. -/
def dvalues {α : Type} (d : List (String × α)) : List α :=
  d.map Prod.snd

/-- Python `d.keys()` in iteration (insertion) order. -/
def dkeys {α : Type} (d : List (String × α)) : List String :=
  d.map Prod.fst

/-- Combined `os.path.islink` / `isfile` / `isdir` probe: the probed
type of a path, `none` when the path does not exist (all probes fail). -/
def fsProbe (fs : Fs) (p : String) : Option FType :=
  (dlookup fs p).map FsEntry.ftype

/-- The digest `TrackedItem.hashfile` computes from the streamed file
content: defined whenever the path exists. -/
def fsHash (fs : Fs) (p : String) : Option Nat :=
  (dlookup fs p).map FsEntry.hash

/-- The value `os.stat(path).st_mtime`.  Only evaluated by the source
when `os.path.isfile` just succeeded, so the default is never reached
there. -/
def fsMtimeD (fs : Fs) (p : String) : Int :=
  ((dlookup fs p).map FsEntry.mtime).getD 0

/-- The `TrackedItem` record: `path`, the back reference `ct` to the
owning tracker, `oldpath` (the path before the last move), `itemtype`
(`None` / `"link"` / `"file"` / `"dir"`), `hash` (md5 digest or `None`)
and `modtime` (`st_mtime` or `None`). -/
structure TrackedItem where
  path : String
  ct : Option Nat
  oldpath : Option String
  itemtype : Option FType
  hash : Option Nat
  modtime : Option Int
deriving DecidableEq, Repr

/-- A snapshot: the `self.allitems` dict, path ↦ `TrackedItem`. -/
abbrev Snapshot := List (String × TrackedItem)

/-- Python 2 semantics of `newmodtime > self.modtime`: every number is
greater than `None`. -/
def py2LtOpt (old : Option Int) (new : Int) : Bool :=
  match old with
  | none => true
  | some m => decide (m < new)

/-- Model of `TrackedItem.update (init, dohash)` from the source: re-probe
`itemtype`, recompute `hash` via `hashfile` when `dohash` (digest for
files, `None` otherwise; `None` when `dohash` is false), and update
`modtime` for files — seeded on `init`, otherwise stored only when the
fresh `st_mtime` is strictly greater.  Returns the mutated item and the
boolean result (`True` exactly on the non-init strictly-newer file
case). -/
def itemUpdate (fs : Fs) (it : TrackedItem) (init : Bool) (dohash : Bool) :
    TrackedItem × Bool :=
  let t := fsProbe fs it.path
  let h := if dohash then (if t = some FType.file then fsHash fs it.path else none)
           else none
  match t with
  | some FType.file =>
    let newmod := fsMtimeD fs it.path
    if init then
      ({ it with itemtype := t, hash := h, modtime := some newmod }, false)
    else if py2LtOpt it.modtime newmod then
      ({ it with itemtype := t, hash := h, modtime := some newmod }, true)
    else
      ({ it with itemtype := t, hash := h }, false)
  | t' =>
    ({ it with itemtype := t', hash := h, modtime := none }, false)

/-- Model of `TrackedItem.__init__ (path, ct)`: seed `path`, `ct`,
`oldpath := None` and run `update (init=True)` (which overwrites
`itemtype`, `hash` and `modtime` unconditionally). -/
def mkItem (fs : Fs) (tid : Nat) (p : String) : TrackedItem :=
  (itemUpdate fs
    { path := p, ct := some tid, oldpath := none,
      itemtype := none, hash := none, modtime := none } true true).1

/-- Model of `TrackedItem.move (newpath, newhash)`: when the path actually
changes, remember the old path, re-key, and either fully refresh
(`newhash is None`) or refresh without hashing and take over the known
hash. -/
def itemMove (fs : Fs) (it : TrackedItem) (newpath : String) (newhash : Option Nat) :
    TrackedItem :=
  if newpath = it.path then it
  else
    let it1 := { it with oldpath := some it.path, path := newpath }
    match newhash with
    | none => (itemUpdate fs it1 false true).1
    | some h => { (itemUpdate fs it1 false false).1 with hash := some h }

/-- State of the enumeration loop of `ChangeTracker.update`:
`allitems`, the shrinking `removeditems`, and the event dicts
`addeditems` / `changeditems` built so far. -/
structure ScanState where
  allitems : Snapshot
  removed : Snapshot
  added : Snapshot
  changed : Snapshot
deriving Repr

/-- One iteration of the `for itempath in recursive_list (...)` loop:
drop the path from `removeditems`; unknown paths get a fresh
`TrackedItem` recorded in `addeditems`; known paths are refreshed in
place, recorded in `changeditems` when `update ()` returns `True`. -/
def scanStep (fs : Fs) (tid : Nat) (st : ScanState) (p : String) : ScanState :=
  let removed := derase st.removed p
  match dlookup st.allitems p with
  | none =>
    let it := mkItem fs tid p
    { allitems := dinsert st.allitems p it, removed := removed,
      added := dinsert st.added p it, changed := st.changed }
  | some it =>
    let r := itemUpdate fs it false true
    { allitems := dinsert st.allitems p r.1, removed := removed,
      added := st.added,
      changed := if r.2 then dinsert st.changed p r.1 else st.changed }

/-- State of the move-detection loop: `allitems`, the shrinking
`removeditems` and `addeditems`, and the `moveditems` built so far. -/
structure MoveState where
  allitems : Snapshot
  removed : Snapshot
  added : Snapshot
  moved : Snapshot
deriving Repr

/-- One iteration of the move-detection loop, for one tentatively
removed item `r`.  The membership test uses the `addedhashes` list
computed once before the loop (`ah`); the candidate is the first
current `addeditems` value with the same hash (`[... ][0]`), and an
empty candidate list is the uncaught Python `IndexError`, modelled as
`none`. -/
def moveStep (fs : Fs) (ah : List (Option Nat)) (st : MoveState) (r : TrackedItem) :
    Option MoveState :=
  if r.itemtype = some FType.file ∧ r.hash ∈ ah then
    match (dvalues st.added).filter (fun a => decide (a.hash = r.hash)) with
    | [] => none
    | a :: _ =>
      let m := itemMove fs r a.path a.hash
      some { allitems := dinsert (derase st.allitems r.path) m.path m,
             removed := derase st.removed r.path,
             added := derase st.added a.path,
             moved := dinsert st.moved m.path m }
  else
    some st

/-- The move-detection loop over the snapshot of `removeditems.values ()`
taken when the loop starts (Python 2 `.values ()` returns a list). -/
def moveLoop (fs : Fs) (ah : List (Option Nat)) (st : MoveState) :
    List TrackedItem → Option MoveState
  | [] => some st
  | r :: rs =>
    match moveStep fs ah st r with
    | none => none
    | some st' => moveLoop fs ah st' rs

/-- The final removal loop: every remaining `removeditems` value is
dropped from `allitems` (and dispatched to `on_removed`). -/
def removePhase (allitems : Snapshot) (removed : Snapshot) : Snapshot :=
  (dvalues removed).foldl (fun ai r => derase ai r.path) allitems

/-- The outcome of one `ChangeTracker.update` tick: the new `allitems`
and the four event dicts handed to the handler callbacks. -/
structure TickResult where
  allitems : Snapshot
  added : Snapshot
  removed : Snapshot
  changed : Snapshot
  moved : Snapshot
deriving DecidableEq, Repr

/-- One `ChangeTracker.update` tick over filesystem state `fs` and the
enumerated relative paths `enum`, starting from snapshot `S`.
`none` models an uncaught exception. -/
def tick (fs : Fs) (tid : Nat) (S : Snapshot) (enum : List String) : Option TickResult :=
  let st1 := enum.foldl (scanStep fs tid) ⟨S, S, [], []⟩
  let ah := (dvalues st1.added).map TrackedItem.hash
  (moveLoop fs ah ⟨st1.allitems, st1.removed, st1.added, []⟩ (dvalues st1.removed)).map
    (fun mv => ⟨removePhase mv.allitems mv.removed, mv.added, mv.removed,
                st1.changed, mv.moved⟩)

/-- The copy of an item written by `savestate`: `i.ct = None`. -/
def stripItem (it : TrackedItem) : TrackedItem :=
  { it with ct := none }

/-- Model of `ChangeTracker.savestate`: the pickled dict
`{ i.path : copy.copy (i) for i in self.allitems.values () }` where
every copy has `ct` set to `None` (pickling itself is faithful on this
data). -/
def savestate (S : Snapshot) : Snapshot :=
  S.foldl (fun acc kv => dinsert acc kv.2.path (stripItem kv.2)) []

/-- The successful branch of `ChangeTracker.loadstate`: unpickle the
dict and point the `ct` field of every item back at the tracker. -/
def loadstateOk (tid : Nat) (d : Snapshot) : Snapshot :=
  d.map (fun kv => (kv.1, { kv.2 with ct := some tid }))

/-- Model of `ChangeTracker.loadstate` including its
`except IOError: pass` branch: `read = none` models an unreadable or
missing state file, in which case `self.allitems` is left untouched. -/
def loadstateTry (tid : Nat) (prior : Snapshot) (read : Option Snapshot) : Snapshot :=
  match read with
  | none => prior
  | some d => loadstateOk tid d

/-- Every stored item carries the key of its own binding as its `path`
field (the snapshot key-coherence invariant). -/
def Coh (d : Snapshot) : Prop :=
  ∀ kv ∈ d, kv.2.path = kv.1

/-- The dict has no duplicate keys (always true of Python dicts). -/
def NodupKeys {α : Type} (d : List (String × α)) : Prop :=
  (dkeys d).Nodup

/-- Every item typed `"file"` carries a digest — true of every item the
program ever builds with `dohash` on. -/
def FilesHaveHash (d : Snapshot) : Prop :=
  ∀ kv ∈ d, kv.2.itemtype = some FType.file → kv.2.hash.isSome = true

/-- An item whose refresh against `fs` reports no change. -/
def stable (fs : Fs) (it : TrackedItem) : Prop :=
  (itemUpdate fs it false true).2 = false

/-- Equality of the persisted payload of two items: `path`, `itemtype`,
`hash` and `modtime` (everything the round-trip contract covers). -/
def sameData (a b : TrackedItem) : Prop :=
  a.path = b.path ∧ a.itemtype = b.itemtype ∧ a.hash = b.hash ∧ a.modtime = b.modtime

/-- The relation `sameData` lifted to optional lookup results. -/
def optSameData : Option TrackedItem → Option TrackedItem → Prop
  | none, none => True
  | some a, some b => sameData a b
  | _, _ => False

/-- What the enumeration loop of `ChangeTracker.update` stores at an
enumerated path: a freshly constructed item when the path was unknown,
the refreshed item otherwise. -/
def scanItem (fs : Fs) (tid : Nat) (prev : Option TrackedItem) (p : String) : TrackedItem :=
  match prev with
  | none => mkItem fs tid p
  | some it => (itemUpdate fs it false true).1

/-- Observable file-handle events of `TrackedItem.hashfile`. -/
inductive HandleOp where
  | opened : HandleOp
  | readBlock : Nat → HandleOp
  | closed : HandleOp
deriving DecidableEq, Repr

/-- Trace of the `fs.read (32)` loop in `TrackedItem.hashfile` over a
file whose content is the given block list.  The read calls are indexed
from 0 (the last successful loop pass reads the empty sentinel block at
index `blocks.length`); `failAt = some k` injects an OSError-style
failure into read call `k`.  Returns the read events that happened and
whether the loop completed without raising. -/
def readCalls (failAt : Option Nat) : List Nat → Nat → List HandleOp × Bool
  | [], i => if failAt = some i then ([], false) else ([], true)
  | b :: rest, i =>
    if failAt = some i then ([], false)
    else
      let r := readCalls failAt rest (i + 1)
      (HandleOp.readBlock b :: r.1, r.2)

/-- Trace of one `TrackedItem.hashfile` call on a file: the handle is
opened, the read loop runs, and `fs.close ()` executes only if the loop
finished without an exception (the source has no try/finally). -/
def hashfileTrace (blocks : List Nat) (failAt : Option Nat) : List HandleOp × Bool :=
  let r := readCalls failAt blocks 0
  if r.2 then (HandleOp.opened :: (r.1 ++ [HandleOp.closed]), true)
  else (HandleOp.opened :: r.1, false)

/-! ## Association-list lemmas -/

section DictLemmas

variable {α : Type}

theorem dlookup_dinsert_self (d : List (String × α)) (k : String) (v : α) :
    dlookup (dinsert d k v) k = some v := by
  induction d with
  | nil => simp [dinsert, dlookup]
  | cons kv rest ih =>
    by_cases h : kv.1 = k
    · simp [dinsert, h, dlookup]
    · simp [dinsert, h, dlookup, ih]

theorem dlookup_dinsert_ne (d : List (String × α)) (k : String) (v : α) (q : String)
    (h : q ≠ k) : dlookup (dinsert d k v) q = dlookup d q := by
  induction d with
  | nil =>
    simp only [dinsert, dlookup]
    rw [if_neg (fun hh => h hh.symm)]
  | cons kv rest ih =>
    by_cases hk : kv.1 = k
    · subst hk
      simp only [dinsert, if_pos rfl, dlookup]
      rw [if_neg (fun hh => h hh.symm), if_neg (fun hh => h hh.symm)]
    · simp only [dinsert, if_neg hk, dlookup]
      by_cases hq : kv.1 = q
      · rw [if_pos hq, if_pos hq]
      · rw [if_neg hq, if_neg hq, ih]

theorem dlookup_derase_self (d : List (String × α)) (k : String) :
    dlookup (derase d k) k = none := by
  induction d with
  | nil => simp [derase, dlookup]
  | cons kv rest ih =>
    by_cases h : kv.1 = k
    · simpa [derase, h] using ih
    · simpa [derase, h, dlookup] using ih

theorem dlookup_derase_ne (d : List (String × α)) (k : String) (q : String)
    (h : q ≠ k) : dlookup (derase d k) q = dlookup d q := by
  induction d with
  | nil => simp [derase, dlookup]
  | cons kv rest ih =>
    by_cases hk : kv.1 = k
    · subst hk
      simp only [derase, List.filter]
      rw [show (decide (kv.1 ≠ kv.1)) = false by simp]
      simp only [dlookup]
      rw [if_neg (fun hh => h hh.symm)]
      simpa [derase] using ih
    · simp only [derase, List.filter]
      rw [show (decide (kv.1 ≠ k)) = true by simpa using hk]
      simp only [dlookup]
      by_cases hq : kv.1 = q
      · rw [if_pos hq, if_pos hq]
      · rw [if_neg hq, if_neg hq]
        simpa [derase] using ih

theorem dlookup_derase_none (d : List (String × α)) (k : String) (q : String)
    (h : dlookup d q = none) : dlookup (derase d k) q = none := by
  by_cases hq : q = k
  · subst hq; exact dlookup_derase_self d q
  · rw [dlookup_derase_ne d k q hq]; exact h

theorem mem_derase {d : List (String × α)} {k : String} {kv : String × α} :
    kv ∈ derase d k ↔ kv ∈ d ∧ kv.1 ≠ k := by
  simp [derase, List.mem_filter]

theorem derase_sublist (d : List (String × α)) (k : String) :
    (derase d k).Sublist d :=
  List.filter_sublist d

theorem mem_dinsert {d : List (String × α)} {k : String} {v : α} {kv : String × α}
    (h : kv ∈ dinsert d k v) : kv ∈ d ∨ kv = (k, v) := by
  induction d with
  | nil => simpa [dinsert] using h
  | cons kv0 rest ih =>
    by_cases hk : kv0.1 = k
    · simp only [dinsert, if_pos hk] at h
      rcases List.mem_cons.mp h with h | h
      · exact Or.inr h
      · exact Or.inl (List.mem_cons_of_mem _ h)
    · simp only [dinsert, if_neg hk] at h
      rcases List.mem_cons.mp h with h | h
      · exact Or.inl (h ▸ List.mem_cons_self _ _)
      · rcases ih h with h | h
        · exact Or.inl (List.mem_cons_of_mem _ h)
        · exact Or.inr h

theorem dlookup_eq_some_mem {d : List (String × α)} {k : String} {v : α}
    (h : dlookup d k = some v) : (k, v) ∈ d := by
  induction d with
  | nil => simp [dlookup] at h
  | cons kv rest ih =>
    obtain ⟨a, b⟩ := kv
    by_cases hk : a = k
    · subst hk
      simp [dlookup] at h
      subst h
      exact List.mem_cons_self _ _
    · simp [dlookup, hk] at h
      exact List.mem_cons_of_mem _ (ih h)

theorem dlookup_isSome_of_mem {d : List (String × α)} {kv : String × α}
    (h : kv ∈ d) : (dlookup d kv.1).isSome = true := by
  induction d with
  | nil => simp at h
  | cons kv0 rest ih =>
    rcases List.mem_cons.mp h with h | h
    · subst h; simp [dlookup]
    · by_cases hk : kv0.1 = kv.1
      · simp [dlookup, hk]
      · simp only [dlookup, if_neg hk]
        exact ih h

theorem dlookup_eq_none_iff {d : List (String × α)} {k : String} :
    dlookup d k = none ↔ k ∉ dkeys d := by
  induction d with
  | nil => simp [dlookup, dkeys]
  | cons kv rest ih =>
    by_cases hk : kv.1 = k
    · simp [dlookup, hk, dkeys]
    · simp only [dlookup, if_neg hk, dkeys, List.map_cons, List.mem_cons, ih, dkeys]
      constructor
      · rintro h (h1 | h1)
        · exact hk h1.symm
        · exact h h1
      · intro h h1
        exact h (Or.inr h1)

theorem dkeys_dinsert_mem {d : List (String × α)} {k q : String} {v : α}
    (h : q ∈ dkeys (dinsert d k v)) : q ∈ dkeys d ∨ q = k := by
  induction d with
  | nil => simpa [dinsert, dkeys] using h
  | cons kv rest ih =>
    by_cases hk : kv.1 = k
    · simp only [dinsert, if_pos hk, dkeys, List.map_cons, List.mem_cons] at h ⊢
      rcases h with h | h
      · exact Or.inr h
      · exact Or.inl (Or.inr h)
    · simp only [dinsert, if_neg hk, dkeys, List.map_cons, List.mem_cons] at h ⊢
      rcases h with h | h
      · exact Or.inl (Or.inl h)
      · rcases ih h with h | h
        · exact Or.inl (Or.inr h)
        · exact Or.inr h

theorem nodupKeys_dinsert {d : List (String × α)} {k : String} {v : α}
    (h : NodupKeys d) : NodupKeys (dinsert d k v) := by
  induction d with
  | nil => simp [dinsert, NodupKeys, dkeys]
  | cons kv rest ih =>
    unfold NodupKeys at h
    simp only [dkeys, List.map_cons, List.nodup_cons] at h
    by_cases hk : kv.1 = k
    · unfold NodupKeys
      simp only [dinsert, if_pos hk, dkeys, List.map_cons, List.nodup_cons]
      exact ⟨hk ▸ h.1, h.2⟩
    · unfold NodupKeys
      simp only [dinsert, if_neg hk, dkeys, List.map_cons, List.nodup_cons]
      refine ⟨fun hmem => ?_, ih h.2⟩
      rcases dkeys_dinsert_mem hmem with hm | hm
      · exact h.1 hm
      · exact hk hm

theorem nodupKeys_derase {d : List (String × α)} {k : String}
    (h : NodupKeys d) : NodupKeys (derase d k) :=
  List.Nodup.sublist (List.Sublist.map Prod.fst (derase_sublist d k)) h

end DictLemmas

theorem coh_dinsert {d : Snapshot} {k : String} {v : TrackedItem}
    (h : Coh d) (hv : v.path = k) : Coh (dinsert d k v) := by
  intro kv hkv
  rcases mem_dinsert hkv with hm | hm
  · exact h kv hm
  · subst hm; exact hv

theorem coh_derase {d : Snapshot} {k : String} (h : Coh d) : Coh (derase d k) :=
  fun kv hkv => h kv (mem_derase.mp hkv).1

theorem coh_lookup {d : Snapshot} {k : String} {v : TrackedItem}
    (h : Coh d) (hl : dlookup d k = some v) : v.path = k :=
  h (k, v) (dlookup_eq_some_mem hl)

theorem dlookup_dinsert_isSome {d : Snapshot} {k p : String} {v : TrackedItem}
    (h : (dlookup d p).isSome = true) :
    (dlookup (dinsert d k v) p).isSome = true := by
  by_cases hk : p = k
  · subst hk; rw [dlookup_dinsert_self]; rfl
  · rw [dlookup_dinsert_ne d k v p hk]; exact h

theorem dinsert_append_of_not_mem {α : Type} {d : List (String × α)} {k : String} {v : α}
    (h : k ∉ dkeys d) : dinsert d k v = d ++ [(k, v)] := by
  induction d with
  | nil => simp [dinsert]
  | cons kv rest ih =>
    simp only [dkeys, List.map_cons, List.mem_cons] at h
    push_neg at h
    simp only [dinsert]
    rw [if_neg (fun hh => h.1 hh.symm), ih h.2, List.cons_append]

/-! ## Lemmas about folded erasure (the scan loop on `removeditems` and
the final removal loop on `allitems`) -/

section FoldErase

variable {α : Type}

theorem foldl_derase_lookup_not_mem {d : List (String × α)} {l : List String} {p : String}
    (h : p ∉ l) : dlookup (l.foldl derase d) p = dlookup d p := by
  induction l generalizing d with
  | nil => rfl
  | cons a l ih =>
    simp only [List.mem_cons] at h
    push_neg at h
    rw [List.foldl_cons, ih h.2, dlookup_derase_ne d a p h.1]

theorem foldl_derase_lookup_mem {d : List (String × α)} {l : List String} {p : String}
    (h : p ∈ l) : dlookup (l.foldl derase d) p = none := by
  induction l generalizing d with
  | nil => simp at h
  | cons a l ih =>
    rw [List.foldl_cons]
    rcases List.mem_cons.mp h with h | h
    · subst h
      by_cases hl : p ∈ l
      · exact ih hl
      · rw [foldl_derase_lookup_not_mem hl, dlookup_derase_self]
    · exact ih h

theorem mem_foldl_derase {d : List (String × α)} {l : List String} {kv : String × α}
    (h : kv ∈ l.foldl derase d) : kv ∈ d ∧ kv.1 ∉ l := by
  induction l generalizing d with
  | nil => exact ⟨h, by simp⟩
  | cons a l ih =>
    rw [List.foldl_cons] at h
    obtain ⟨h1, h2⟩ := ih h
    obtain ⟨h3, h4⟩ := mem_derase.mp h1
    exact ⟨h3, by simp [h4, h2]⟩

theorem foldl_erasePath_lookup {A : Snapshot} {vs : List TrackedItem} {p : String}
    (h : ∀ r ∈ vs, r.path ≠ p) :
    dlookup (vs.foldl (fun ai r => derase ai r.path) A) p = dlookup A p := by
  induction vs generalizing A with
  | nil => rfl
  | cons r vs ih =>
    rw [List.foldl_cons, ih (fun x hx => h x (List.mem_cons_of_mem _ hx)),
      dlookup_derase_ne A r.path p (fun hh => h r (List.mem_cons_self _ _) hh.symm)]

theorem foldl_erasePath_none {A : Snapshot} {vs : List TrackedItem} {p : String}
    (h : dlookup A p = none) :
    dlookup (vs.foldl (fun ai r => derase ai r.path) A) p = none := by
  induction vs generalizing A with
  | nil => exact h
  | cons r vs ih =>
    rw [List.foldl_cons]
    exact ih (dlookup_derase_none A r.path p h)

theorem foldl_erasePath_mem_none {A : Snapshot} {vs : List TrackedItem} {p : String}
    (h : ∃ r ∈ vs, r.path = p) :
    dlookup (vs.foldl (fun ai r => derase ai r.path) A) p = none := by
  induction vs generalizing A with
  | nil => simp at h
  | cons r vs ih =>
    rw [List.foldl_cons]
    obtain ⟨x, hx, hxp⟩ := h
    rcases List.mem_cons.mp hx with hh | hh
    · subst hh
      exact foldl_erasePath_none (hxp ▸ dlookup_derase_self A p)
    · exact ih ⟨x, hh, hxp⟩

theorem foldl_erasePath_sublist (A : Snapshot) (vs : List TrackedItem) :
    (vs.foldl (fun ai r => derase ai r.path) A).Sublist A := by
  induction vs generalizing A with
  | nil => exact List.Sublist.refl A
  | cons r vs ih =>
    rw [List.foldl_cons]
    exact (ih (derase A r.path)).trans (derase_sublist A r.path)

theorem mem_foldl_erasePath {A : Snapshot} {vs : List TrackedItem} {kv : String × TrackedItem}
    (h : kv ∈ vs.foldl (fun ai r => derase ai r.path) A) : kv ∈ A :=
  (foldl_erasePath_sublist A vs).mem h

end FoldErase

/-! ## Lemmas about the item-level operations -/

theorem itemUpdate_fields (fs : Fs) (it : TrackedItem) (i d : Bool) :
    (itemUpdate fs it i d).1.path = it.path ∧
      (itemUpdate fs it i d).1.oldpath = it.oldpath ∧
      (itemUpdate fs it i d).1.ct = it.ct := by
  unfold itemUpdate
  rcases hp : fsProbe fs it.path with _ | ft
  · simp [hp]
  · cases ft with
    | file =>
      simp only [hp]
      by_cases hi : i = true
      · simp [hi]
      · by_cases hlt : py2LtOpt it.modtime (fsMtimeD fs it.path) = true
        · simp [hi, hlt]
        · simp [hi, hlt]
    | link => simp [hp]
    | dir => simp [hp]

theorem itemUpdate_path (fs : Fs) (it : TrackedItem) (i d : Bool) :
    (itemUpdate fs it i d).1.path = it.path :=
  (itemUpdate_fields fs it i d).1

theorem itemUpdate_oldpath (fs : Fs) (it : TrackedItem) (i d : Bool) :
    (itemUpdate fs it i d).1.oldpath = it.oldpath :=
  (itemUpdate_fields fs it i d).2.1

theorem itemUpdate_ct (fs : Fs) (it : TrackedItem) (i d : Bool) :
    (itemUpdate fs it i d).1.ct = it.ct :=
  (itemUpdate_fields fs it i d).2.2

theorem mkItem_path (fs : Fs) (tid : Nat) (p : String) : (mkItem fs tid p).path = p := by
  unfold mkItem
  rw [itemUpdate_path]

theorem mkItem_oldpath (fs : Fs) (tid : Nat) (p : String) :
    (mkItem fs tid p).oldpath = none := by
  unfold mkItem
  rw [itemUpdate_oldpath]

theorem itemUpdate_snd_eq (fs : Fs) (it : TrackedItem) (i d : Bool) :
    (itemUpdate fs it i d).2 =
      (!i && (decide (fsProbe fs it.path = some FType.file) &&
        py2LtOpt it.modtime (fsMtimeD fs it.path))) := by
  unfold itemUpdate
  rcases hp : fsProbe fs it.path with _ | ft
  · simp [hp]
  · cases ft with
    | file =>
      simp only [hp, decide_eq_true_eq]
      by_cases hi : i
      · subst hi; simp
      · simp only [Bool.not_eq_true] at hi
        subst hi
        by_cases hlt : py2LtOpt it.modtime (fsMtimeD fs it.path) = true
        · simp [hlt]
        · simp only [Bool.not_eq_true] at hlt
          simp [hlt]
    | link => simp [hp]
    | dir => simp [hp]

theorem itemUpdate_modtime_eq (fs : Fs) (it : TrackedItem) (i d : Bool) :
    (itemUpdate fs it i d).1.modtime =
      (if fsProbe fs it.path = some FType.file then
        (if (i || py2LtOpt it.modtime (fsMtimeD fs it.path)) = true then
          some (fsMtimeD fs it.path)
        else it.modtime)
      else none) := by
  unfold itemUpdate
  rcases hp : fsProbe fs it.path with _ | ft
  · simp [hp]
  · cases ft with
    | file =>
      simp only [hp, if_pos rfl]
      by_cases hi : i
      · subst hi; simp
      · simp only [Bool.not_eq_true] at hi
        subst hi
        by_cases hlt : py2LtOpt it.modtime (fsMtimeD fs it.path) = true
        · simp [hlt]
        · simp only [Bool.not_eq_true] at hlt
          simp [hlt]
    | link => simp [hp]
    | dir => simp [hp]

theorem itemUpdate_absent (fs : Fs) (it : TrackedItem) (i d : Bool)
    (h : dlookup fs it.path = none) :
    (itemUpdate fs it i d).1.itemtype = none ∧ (itemUpdate fs it i d).1.hash = none ∧
      (itemUpdate fs it i d).1.modtime = none := by
  have hp : fsProbe fs it.path = none := by simp [fsProbe, h]
  unfold itemUpdate
  simp [hp]

theorem mkItem_absent (fs : Fs) (tid : Nat) (p : String) (h : dlookup fs p = none) :
    mkItem fs tid p =
      { path := p, ct := some tid, oldpath := none,
        itemtype := none, hash := none, modtime := none } := by
  have hp : fsProbe fs p = none := by simp [fsProbe, h]
  unfold mkItem itemUpdate
  simp [hp]

theorem mkItem_hash_isSome (fs : Fs) (tid : Nat) (p : String) :
    (mkItem fs tid p).hash.isSome = true ↔ fsProbe fs p = some FType.file := by
  unfold mkItem itemUpdate
  rcases hp : fsProbe fs p with _ | ft
  · simp [hp]
  · cases ft with
    | file =>
      obtain ⟨e, he⟩ : ∃ e, dlookup fs p = some e := by
        rcases hl : dlookup fs p with _ | e
        · rw [fsProbe, hl] at hp; simp at hp
        · exact ⟨e, rfl⟩
      simp [hp, fsHash, he]
    | link => simp [hp]
    | dir => simp [hp]

theorem stable_of_path_modtime {fs : Fs} {x y : TrackedItem}
    (hp : x.path = y.path) (hm : x.modtime = y.modtime) (h : stable fs y) :
    stable fs x := by
  unfold stable at h ⊢
  rw [itemUpdate_snd_eq] at h ⊢
  rw [hp, hm]
  exact h

theorem stable_itemUpdate (fs : Fs) (it : TrackedItem) (i d : Bool) :
    stable fs (itemUpdate fs it i d).1 := by
  unfold stable
  rw [itemUpdate_snd_eq, itemUpdate_path]
  by_cases hp : fsProbe fs it.path = some FType.file
  · rw [itemUpdate_modtime_eq, if_pos hp]
    by_cases hc : (i || py2LtOpt it.modtime (fsMtimeD fs it.path)) = true
    · rw [if_pos hc]
      simp [py2LtOpt]
    · rw [if_neg hc]
      simp only [Bool.or_eq_true, not_or, Bool.not_eq_true] at hc
      simp [hc.2]
  · simp [hp]

theorem stable_mkItem (fs : Fs) (tid : Nat) (p : String) : stable fs (mkItem fs tid p) :=
  stable_itemUpdate fs _ true true

theorem itemMove_path {fs : Fs} {it : TrackedItem} {np : String} {nh : Option Nat}
    (h : np ≠ it.path) : (itemMove fs it np nh).path = np := by
  unfold itemMove
  rw [if_neg h]
  cases nh with
  | none => rw [itemUpdate_path]
  | some x => rw [itemUpdate_path]

theorem itemMove_oldpath {fs : Fs} {it : TrackedItem} {np : String} {nh : Option Nat}
    (h : np ≠ it.path) : (itemMove fs it np nh).oldpath = some it.path := by
  unfold itemMove
  rw [if_neg h]
  cases nh with
  | none => rw [itemUpdate_oldpath]
  | some x => rw [itemUpdate_oldpath]

theorem stable_itemMove {fs : Fs} {it : TrackedItem} {np : String} {nh : Option Nat}
    (h : np ≠ it.path) : stable fs (itemMove fs it np nh) := by
  unfold itemMove
  rw [if_neg h]
  cases nh with
  | none => exact stable_itemUpdate fs _ false true
  | some x =>
    exact stable_of_path_modtime rfl rfl (stable_itemUpdate fs _ false false)

/-! ## Lemmas about the enumeration (scan) loop -/

theorem scanStep_removed (fs : Fs) (tid : Nat) (st : ScanState) (p : String) :
    (scanStep fs tid st p).removed = derase st.removed p := by
  unfold scanStep
  cases h : dlookup st.allitems p <;> simp [h]

theorem scanStep_changed (fs : Fs) (tid : Nat) (st : ScanState) (p : String) :
    (scanStep fs tid st p).changed =
      (match dlookup st.allitems p with
      | none => st.changed
      | some it =>
        if (itemUpdate fs it false true).2 then
          dinsert st.changed p (itemUpdate fs it false true).1
        else st.changed) := by
  unfold scanStep
  cases h : dlookup st.allitems p <;> simp [h]

theorem scanStep_allitems_self (fs : Fs) (tid : Nat) (st : ScanState) (p : String) :
    dlookup (scanStep fs tid st p).allitems p =
      some (scanItem fs tid (dlookup st.allitems p) p) := by
  unfold scanStep scanItem
  cases h : dlookup st.allitems p <;> simp [h, dlookup_dinsert_self]

theorem scanStep_allitems_ne (fs : Fs) (tid : Nat) (st : ScanState) (p q : String)
    (h : q ≠ p) :
    dlookup (scanStep fs tid st p).allitems q = dlookup st.allitems q := by
  unfold scanStep
  cases hl : dlookup st.allitems p <;> simp [hl, dlookup_dinsert_ne _ _ _ _ h]

theorem scanStep_added_self (fs : Fs) (tid : Nat) (st : ScanState) (p : String) :
    dlookup (scanStep fs tid st p).added p =
      (match dlookup st.allitems p with
      | none => some (mkItem fs tid p)
      | some _ => dlookup st.added p) := by
  unfold scanStep
  cases h : dlookup st.allitems p <;> simp [h, dlookup_dinsert_self]

theorem scanStep_added_ne (fs : Fs) (tid : Nat) (st : ScanState) (p q : String)
    (h : q ≠ p) :
    dlookup (scanStep fs tid st p).added q = dlookup st.added q := by
  unfold scanStep
  cases hl : dlookup st.allitems p <;> simp [hl, dlookup_dinsert_ne _ _ _ _ h]

theorem scan_removed_eq (fs : Fs) (tid : Nat) (l : List String) (st : ScanState) :
    (l.foldl (scanStep fs tid) st).removed = l.foldl derase st.removed := by
  induction l generalizing st with
  | nil => rfl
  | cons a l ih =>
    rw [List.foldl_cons, List.foldl_cons, ih, scanStep_removed]

theorem scan_allitems_not_mem {fs : Fs} {tid : Nat} {l : List String} {st : ScanState}
    {p : String} (h : p ∉ l) :
    dlookup (l.foldl (scanStep fs tid) st).allitems p = dlookup st.allitems p := by
  induction l generalizing st with
  | nil => rfl
  | cons a l ih =>
    simp only [List.mem_cons] at h
    push_neg at h
    rw [List.foldl_cons, ih h.2, scanStep_allitems_ne fs tid st a p h.1]

theorem scan_added_not_mem {fs : Fs} {tid : Nat} {l : List String} {st : ScanState}
    {p : String} (h : p ∉ l) :
    dlookup (l.foldl (scanStep fs tid) st).added p = dlookup st.added p := by
  induction l generalizing st with
  | nil => rfl
  | cons a l ih =>
    simp only [List.mem_cons] at h
    push_neg at h
    rw [List.foldl_cons, ih h.2, scanStep_added_ne fs tid st a p h.1]

theorem scan_allitems_mem {fs : Fs} {tid : Nat} {l : List String} {st : ScanState}
    {p : String} (hnd : l.Nodup) (hp : p ∈ l) :
    dlookup (l.foldl (scanStep fs tid) st).allitems p =
      some (scanItem fs tid (dlookup st.allitems p) p) := by
  induction l generalizing st with
  | nil => simp at hp
  | cons a l ih =>
    rw [List.nodup_cons] at hnd
    rw [List.foldl_cons]
    rcases List.mem_cons.mp hp with hh | hh
    · subst hh
      rw [scan_allitems_not_mem hnd.1, scanStep_allitems_self]
    · have hne : p ≠ a := fun he => hnd.1 (he ▸ hh)
      rw [ih hnd.2 hh, scanStep_allitems_ne fs tid st a p hne]

theorem scan_added_mem {fs : Fs} {tid : Nat} {l : List String} {st : ScanState}
    {p : String} (hnd : l.Nodup) (hp : p ∈ l) :
    dlookup (l.foldl (scanStep fs tid) st).added p =
      (match dlookup st.allitems p with
      | none => some (mkItem fs tid p)
      | some _ => dlookup st.added p) := by
  induction l generalizing st with
  | nil => simp at hp
  | cons a l ih =>
    rw [List.nodup_cons] at hnd
    rw [List.foldl_cons]
    rcases List.mem_cons.mp hp with hh | hh
    · subst hh
      rw [scan_added_not_mem hnd.1, scanStep_added_self]
    · have hne : p ≠ a := fun he => hnd.1 (he ▸ hh)
      rw [ih hnd.2 hh, scanStep_allitems_ne fs tid st a p hne,
        scanStep_added_ne fs tid st a p hne]

theorem scan_added_entries {fs : Fs} {tid : Nat} {l : List String} {st : ScanState}
    {kv : String × TrackedItem} (h : kv ∈ (l.foldl (scanStep fs tid) st).added) :
    kv ∈ st.added ∨ (kv.1 ∈ l ∧ kv.2 = mkItem fs tid kv.1) := by
  induction l generalizing st with
  | nil => exact Or.inl h
  | cons a l ih =>
    rw [List.foldl_cons] at h
    rcases ih h with h1 | h1
    · unfold scanStep at h1
      cases hl : dlookup st.allitems a
      · rw [hl] at h1
        simp only at h1
        rcases mem_dinsert h1 with h2 | h2
        · exact Or.inl h2
        · subst h2
          exact Or.inr ⟨List.mem_cons_self _ _, rfl⟩
      · rw [hl] at h1
        exact Or.inl h1
    · exact Or.inr ⟨List.mem_cons_of_mem _ h1.1, h1.2⟩

theorem scanStep_coh {fs : Fs} {tid : Nat} {st : ScanState} {p : String}
    (h : Coh st.allitems) : Coh (scanStep fs tid st p).allitems := by
  unfold scanStep
  cases hl : dlookup st.allitems p with
  | none =>
    simp only
    exact coh_dinsert h (mkItem_path fs tid p)
  | some it =>
    simp only
    exact coh_dinsert h ((itemUpdate_path fs it false true).trans (coh_lookup h hl))

theorem scan_coh {fs : Fs} {tid : Nat} {l : List String} {st : ScanState}
    (h : Coh st.allitems) : Coh (l.foldl (scanStep fs tid) st).allitems := by
  induction l generalizing st with
  | nil => exact h
  | cons a l ih =>
    rw [List.foldl_cons]
    exact ih (scanStep_coh h)

theorem scanStep_nodup {fs : Fs} {tid : Nat} {st : ScanState} {p : String}
    (h : NodupKeys st.allitems) : NodupKeys (scanStep fs tid st p).allitems := by
  unfold scanStep
  cases hl : dlookup st.allitems p <;> simp only <;> exact nodupKeys_dinsert h

theorem scan_nodup {fs : Fs} {tid : Nat} {l : List String} {st : ScanState}
    (h : NodupKeys st.allitems) : NodupKeys (l.foldl (scanStep fs tid) st).allitems := by
  induction l generalizing st with
  | nil => exact h
  | cons a l ih =>
    rw [List.foldl_cons]
    exact ih (scanStep_nodup h)

theorem scan_added_eq_of_known {fs : Fs} {tid : Nat} {l : List String} {st : ScanState}
    (h : ∀ p ∈ l, (dlookup st.allitems p).isSome = true) :
    (l.foldl (scanStep fs tid) st).added = st.added := by
  induction l generalizing st with
  | nil => rfl
  | cons a l ih
  =>
    rw [List.foldl_cons]
    obtain ⟨it, hit⟩ := Option.isSome_iff_exists.mp (h a (List.mem_cons_self _ _))
    have hstep : (scanStep fs tid st a).added = st.added := by
      unfold scanStep
      rw [hit]
    have hall : ∀ p ∈ l, (dlookup (scanStep fs tid st a).allitems p).isSome = true := by
      intro p hp
      unfold scanStep
      rw [hit]
      simp only
      exact dlookup_dinsert_isSome (h p (List.mem_cons_of_mem _ hp))
    rw [ih hall, hstep]

theorem scan_changed_eq_of_stable {fs : Fs} {tid : Nat} {l : List String} {st : ScanState}
    (hnd : l.Nodup)
    (h : ∀ p ∈ l, ∀ it, dlookup st.allitems p = some it →
      (itemUpdate fs it false true).2 = false) :
    (l.foldl (scanStep fs tid) st).changed = st.changed := by
  induction l generalizing st with
  | nil => rfl
  | cons a l ih =>
    rw [List.nodup_cons] at hnd
    rw [List.foldl_cons]
    have hstep : (scanStep fs tid st a).changed = st.changed := by
      rw [scanStep_changed]
      cases hl : dlookup st.allitems a with
      | none => rfl
      | some it =>
        simp only
        rw [h a (List.mem_cons_self _ _) it hl]
        rfl
    have hall : ∀ p ∈ l, ∀ it, dlookup (scanStep fs tid st a).allitems p = some it →
        (itemUpdate fs it false true).2 = false := by
      intro p hp it hit
      have hne : p ≠ a := fun he => hnd.1 (he ▸ hp)
      rw [scanStep_allitems_ne fs tid st a p hne] at hit
      exact h p (List.mem_cons_of_mem _ hp) it hit
    rw [ih hnd.2 hall, hstep]

/-! ## The move-detection loop invariant -/

/-- The invariant carried through the move-detection loop of
`ChangeTracker.update`.  Here `S` is the snapshot the tick started
from, `R0` and `D0` are `removeditems` and `addeditems` as they stand
when the enumeration loop finishes, and `st` is the current loop
state. -/
structure MoveInv (fs : Fs) (tid : Nat) (enum : List String) (S R0 D0 : Snapshot)
    (st : MoveState) : Prop where
  cohA : Coh st.allitems
  ndA : NodupKeys st.allitems
  stableA : ∀ k it, dlookup st.allitems k = some it → k ∈ enum → stable fs it
  keysA : ∀ k, (dlookup st.allitems k).isSome = true →
    k ∈ enum ∨ (dlookup st.removed k).isSome = true
  enumKeep : ∀ p ∈ enum, (dlookup st.allitems p).isSome = true
  addOK : ∀ kv ∈ st.added, kv.1 ∈ enum ∧ kv.2 = mkItem fs tid kv.1
  remSub : ∀ kv ∈ st.removed, kv ∈ R0
  cohR : Coh st.removed
  oldA : ∀ k it, dlookup st.allitems k = some it →
    (dlookup st.moved k).isSome = true ∨
      (∃ old, dlookup S k = some old ∧ it.oldpath = old.oldpath) ∨ it.oldpath = none
  absA : ∀ p ∈ enum, dlookup fs p = none → ∀ it, dlookup st.allitems p = some it →
    it.itemtype = none ∧ it.hash = none ∧ it.modtime = none
  addAbs : ∀ p ∈ enum, dlookup fs p = none → dlookup st.added p = dlookup D0 p

theorem moveStep_inv {fs : Fs} {tid : Nat} {enum : List String} {S R0 D0 : Snapshot}
    {ah : List (Option Nat)} {st st1 : MoveState} {r : TrackedItem}
    (hrp : r.path ∉ enum)
    (hrh : r.itemtype = some FType.file → r.hash.isSome = true)
    (hinv : MoveInv fs tid enum S R0 D0 st)
    (h : moveStep fs ah st r = some st1) :
    MoveInv fs tid enum S R0 D0 st1 := by
  unfold moveStep at h
  by_cases hg : r.itemtype = some FType.file ∧ r.hash ∈ ah
  · rw [if_pos hg] at h
    cases hfil : (dvalues st.added).filter (fun a => decide (a.hash = r.hash)) with
    | nil =>
      rw [hfil] at h
      exact absurd h (by simp)
    | cons a rest =>
      rw [hfil] at h
      simp only [Option.some.injEq] at h
      subst h
      have hamem : a ∈ (dvalues st.added).filter (fun a => decide (a.hash = r.hash)) := by
        rw [hfil]
        exact List.mem_cons_self _ _
      have ha := List.mem_filter.mp hamem
      have hahash : a.hash = r.hash := of_decide_eq_true ha.2
      obtain ⟨kv, hkv, hkva⟩ : ∃ kv ∈ st.added, kv.2 = a := by
        unfold dvalues at ha
        obtain ⟨kv, hkv, hkva⟩ := List.mem_map.mp ha.1
        exact ⟨kv, hkv, hkva⟩
      obtain ⟨hk_enum, hk_eq⟩ := hinv.addOK kv hkv
      have hapath : a.path = kv.1 := by
        rw [← hkva, hk_eq, mkItem_path]
      have hapath_enum : a.path ∈ enum := hapath ▸ hk_enum
      have hne : a.path ≠ r.path := fun he => hrp (he ▸ hapath_enum)
      have hmpath : (itemMove fs r a.path a.hash).path = a.path := itemMove_path hne
      have hmstable : stable fs (itemMove fs r a.path a.hash) := stable_itemMove hne
      have hmk : a = mkItem fs tid a.path := by
        rw [hapath]
        exact hkva.symm.trans hk_eq
      have hprobe : fsProbe fs a.path = some FType.file := by
        refine (mkItem_hash_isSome fs tid a.path).mp ?_
        rw [← hmk, hahash]
        exact hrh hg.1
      have hlookupa : dlookup fs a.path ≠ none := by
        intro hnone
        rw [fsProbe, hnone] at hprobe
        simp at hprobe
      refine
        { cohA := ?_, ndA := ?_, stableA := ?_, keysA := ?_, enumKeep := ?_,
          addOK := ?_, remSub := ?_, cohR := ?_, oldA := ?_, absA := ?_, addAbs := ?_ }
      · exact coh_dinsert (coh_derase hinv.cohA) rfl
      · exact nodupKeys_dinsert (nodupKeys_derase hinv.ndA)
      · intro k it hit hk
        by_cases hkm : k = (itemMove fs r a.path a.hash).path
        · subst hkm
          rw [dlookup_dinsert_self] at hit
          cases hit
          exact hmstable
        · rw [dlookup_dinsert_ne _ _ _ _ hkm] at hit
          have hkr : k ≠ r.path := fun he => hrp (he ▸ hk)
          rw [dlookup_derase_ne _ _ _ hkr] at hit
          exact hinv.stableA k it hit hk
      · intro k hk
        by_cases hkm : k = (itemMove fs r a.path a.hash).path
        · subst hkm
          left
          rw [hmpath]
          exact hapath_enum
        · rw [dlookup_dinsert_ne _ _ _ _ hkm] at hk
          by_cases hkr : k = r.path
          · subst hkr
            rw [dlookup_derase_self] at hk
            simp at hk
          · rw [dlookup_derase_ne _ _ _ hkr] at hk
            rcases hinv.keysA k hk with h1 | h1
            · exact Or.inl h1
            · right
              rw [dlookup_derase_ne _ _ _ hkr]
              exact h1
      · intro p hp
        by_cases hpm : p = (itemMove fs r a.path a.hash).path
        · subst hpm
          rw [dlookup_dinsert_self]
          rfl
        · rw [dlookup_dinsert_ne _ _ _ _ hpm]
          have hpr : p ≠ r.path := fun he => hrp (he ▸ hp)
          rw [dlookup_derase_ne _ _ _ hpr]
          exact hinv.enumKeep p hp
      · intro kv2 hkv2
        exact hinv.addOK kv2 (mem_derase.mp hkv2).1
      · intro kv2 hkv2
        exact hinv.remSub kv2 (mem_derase.mp hkv2).1
      · exact coh_derase hinv.cohR
      · intro k it hit
        by_cases hkm : k = (itemMove fs r a.path a.hash).path
        · subst hkm
          left
          rw [dlookup_dinsert_self]
          rfl
        · rw [dlookup_dinsert_ne _ _ _ _ hkm] at hit
          by_cases hkr : k = r.path
          · subst hkr
            rw [dlookup_derase_self] at hit
            cases hit
          · rw [dlookup_derase_ne _ _ _ hkr] at hit
            rcases hinv.oldA k it hit with h1 | h1
            · left
              rw [dlookup_dinsert_ne _ _ _ _ hkm]
              exact h1
            · exact Or.inr h1
      · intro p hp habs it hit
        by_cases hpm : p = (itemMove fs r a.path a.hash).path
        · exfalso
          apply hlookupa
          rw [← hmpath, ← hpm]
          exact habs
        · rw [dlookup_dinsert_ne _ _ _ _ hpm] at hit
          have hpr : p ≠ r.path := fun he => hrp (he ▸ hp)
          rw [dlookup_derase_ne _ _ _ hpr] at hit
          exact hinv.absA p hp habs it hit
      · intro p hp habs
        have hpa : p ≠ a.path := fun he => hlookupa (he ▸ habs)
        rw [dlookup_derase_ne _ _ _ hpa]
        exact hinv.addAbs p hp habs
  · rw [if_neg hg] at h
    cases h
    exact hinv

theorem moveLoop_inv {fs : Fs} {tid : Nat} {enum : List String} {S R0 D0 : Snapshot}
    {ah : List (Option Nat)} {rs : List TrackedItem} {st st' : MoveState}
    (hrs : ∀ r ∈ rs, r.path ∉ enum ∧ (r.itemtype = some FType.file → r.hash.isSome = true))
    (hinv : MoveInv fs tid enum S R0 D0 st)
    (h : moveLoop fs ah st rs = some st') :
    MoveInv fs tid enum S R0 D0 st' := by
  induction rs generalizing st with
  | nil =>
    cases h
    exact hinv
  | cons r rs ih =>
    unfold moveLoop at h
    cases hms : moveStep fs ah st r with
    | none =>
      rw [hms] at h
      exact absurd h (by simp)
    | some st1 =>
      rw [hms] at h
      have hr := hrs r (List.mem_cons_self _ _)
      exact ih (fun x hx => hrs x (List.mem_cons_of_mem _ hx))
        (moveStep_inv hr.1 hr.2 hinv hms) h

theorem moveInv_base (fs : Fs) (tid : Nat) (enum : List String) (S : Snapshot)
    (hc : Coh S) (hn : NodupKeys S) (he : enum.Nodup) :
    MoveInv fs tid enum S
      (List.foldl (scanStep fs tid) ⟨S, S, [], []⟩ enum).removed
      (List.foldl (scanStep fs tid) ⟨S, S, [], []⟩ enum).added
      ⟨(List.foldl (scanStep fs tid) ⟨S, S, [], []⟩ enum).allitems,
       (List.foldl (scanStep fs tid) ⟨S, S, [], []⟩ enum).removed,
       (List.foldl (scanStep fs tid) ⟨S, S, [], []⟩ enum).added, []⟩ := by
  refine
    { cohA := ?_, ndA := ?_, stableA := ?_, keysA := ?_, enumKeep := ?_,
      addOK := ?_, remSub := ?_, cohR := ?_, oldA := ?_, absA := ?_, addAbs := ?_ }
  · exact scan_coh hc
  · exact scan_nodup hn
  · intro k it hit hk
    rw [scan_allitems_mem he hk] at hit
    cases hit
    cases hl : dlookup S k with
    | none => exact stable_mkItem fs tid k
    | some old => exact stable_itemUpdate fs old false true
  · intro k hk
    by_cases hke : k ∈ enum
    · exact Or.inl hke
    · right
      rw [scan_removed_eq]
      rw [foldl_derase_lookup_not_mem hke]
      rw [scan_allitems_not_mem hke] at hk
      exact hk
  · intro p hp
    rw [scan_allitems_mem he hp]
    rfl
  · intro kv hkv
    rcases scan_added_entries hkv with h1 | h1
    · simp at h1
    · exact h1
  · intro kv hkv
    exact hkv
  · intro kv hkv
    rw [scan_removed_eq] at hkv
    exact hc kv (mem_foldl_derase hkv).1
  · intro k it hit
    right
    by_cases hke : k ∈ enum
    · rw [scan_allitems_mem he hke] at hit
      cases hit
      cases hl : dlookup S k with
      | none =>
        right
        exact mkItem_oldpath fs tid k
      | some old =>
        left
        exact ⟨old, rfl, itemUpdate_oldpath fs old false true⟩
    · rw [scan_allitems_not_mem hke] at hit
      exact Or.inl ⟨it, hit, rfl⟩
  · intro p hp habs it hit
    rw [scan_allitems_mem he hp] at hit
    cases hit
    cases hl : dlookup S p with
    | none =>
      show (mkItem fs tid p).itemtype = none ∧ (mkItem fs tid p).hash = none ∧
        (mkItem fs tid p).modtime = none
      rw [mkItem_absent fs tid p habs]
      exact ⟨rfl, rfl, rfl⟩
    | some old =>
      refine itemUpdate_absent fs old false true ?_
      rw [coh_lookup hc hl]
      exact habs
  · intro p hp habs
    rfl

theorem removed_values_base (fs : Fs) (tid : Nat) (enum : List String) (S : Snapshot)
    (hc : Coh S) (hf : FilesHaveHash S) :
    ∀ r ∈ dvalues (List.foldl (scanStep fs tid) ⟨S, S, [], []⟩ enum).removed,
      r.path ∉ enum ∧ (r.itemtype = some FType.file → r.hash.isSome = true) := by
  intro r hr
  rw [scan_removed_eq] at hr
  unfold dvalues at hr
  obtain ⟨kv, hkv, hkvr⟩ := List.mem_map.mp hr
  obtain ⟨hkS, hkne⟩ := mem_foldl_derase hkv
  have hpath : r.path = kv.1 := by
    rw [← hkvr]
    exact hc kv hkS
  refine ⟨hpath ▸ hkne, fun hft => ?_⟩
  have := hf kv hkS (by rw [hkvr]; exact hft)
  rw [hkvr] at this
  exact this

/-! ## Decomposing a completed tick -/

theorem tick_analysis {fs : Fs} {tid : Nat} {S : Snapshot} {enum : List String}
    (hc : Coh S) (hn : NodupKeys S) (hf : FilesHaveHash S) (he : enum.Nodup)
    {r : TickResult} (ht : tick fs tid S enum = some r) :
    ∃ mv : MoveState,
      MoveInv fs tid enum S
        (List.foldl (scanStep fs tid) ⟨S, S, [], []⟩ enum).removed
        (List.foldl (scanStep fs tid) ⟨S, S, [], []⟩ enum).added mv ∧
      r.allitems = removePhase mv.allitems mv.removed ∧
      r.added = mv.added ∧ r.removed = mv.removed ∧
      r.changed = (List.foldl (scanStep fs tid) ⟨S, S, [], []⟩ enum).changed ∧
      r.moved = mv.moved ∧
      (∀ kv ∈ mv.removed, kv ∈ S ∧ kv.1 ∉ enum) := by
  unfold tick at ht
  rw [Option.map_eq_some'] at ht
  obtain ⟨mv, hml, heq⟩ := ht
  have hinv := moveLoop_inv (removed_values_base fs tid enum S hc hf)
    (moveInv_base fs tid enum S hc hn he) hml
  refine ⟨mv, hinv, ?_, ?_, ?_, ?_, ?_, ?_⟩
  · rw [← heq]
  · rw [← heq]
  · rw [← heq]
  · rw [← heq]
  · rw [← heq]
  · intro kv hkv
    have h1 := hinv.remSub kv hkv
    rw [scan_removed_eq] at h1
    exact mem_foldl_derase h1

theorem removed_keys_not_enum {fs : Fs} {tid : Nat} {enum : List String}
    {S R0 D0 : Snapshot} {mv : MoveState}
    (hinv : MoveInv fs tid enum S R0 D0 mv)
    (hrem : ∀ kv ∈ mv.removed, kv ∈ S ∧ kv.1 ∉ enum) :
    ∀ x ∈ dvalues mv.removed, x.path ∉ enum := by
  intro x hx
  unfold dvalues at hx
  obtain ⟨kv, hkv, hkvx⟩ := List.mem_map.mp hx
  have hp : x.path = kv.1 := by
    rw [← hkvx]
    exact hinv.cohR kv hkv
  exact hp ▸ (hrem kv hkv).2

theorem removePhase_lookup_of_enum {fs : Fs} {tid : Nat} {enum : List String}
    {S R0 D0 : Snapshot} {mv : MoveState}
    (hinv : MoveInv fs tid enum S R0 D0 mv)
    (hrem : ∀ kv ∈ mv.removed, kv ∈ S ∧ kv.1 ∉ enum)
    {p : String} (hp : p ∈ enum) :
    dlookup (removePhase mv.allitems mv.removed) p = dlookup mv.allitems p := by
  unfold removePhase
  refine foldl_erasePath_lookup ?_
  intro x hx he
  exact removed_keys_not_enum hinv hrem x hx (he ▸ hp)

theorem removePhase_keys {fs : Fs} {tid : Nat} {enum : List String}
    {S R0 D0 : Snapshot} {mv : MoveState}
    (hinv : MoveInv fs tid enum S R0 D0 mv) :
    ∀ k, (dlookup (removePhase mv.allitems mv.removed) k).isSome = true → k ∈ enum := by
  intro k hk
  by_cases hex : ∃ x ∈ dvalues mv.removed, x.path = k
  · unfold removePhase at hk
    rw [foldl_erasePath_mem_none hex] at hk
    simp at hk
  · push_neg at hex
    unfold removePhase at hk
    rw [foldl_erasePath_lookup hex] at hk
    rcases hinv.keysA k hk with h1 | h1
    · exact h1
    · exfalso
      obtain ⟨v, hv⟩ := Option.isSome_iff_exists.mp h1
      have hmem := dlookup_eq_some_mem hv
      refine hex v ?_ (hinv.cohR (k, v) hmem)
      unfold dvalues
      exact List.mem_map.mpr ⟨(k, v), hmem, rfl⟩

/-! ## Claim theorems -/

/-- C10: Snapshot key coherence.  For a well-formed previous snapshot
(keys unique, every item keyed by its own `path`, file items carrying a
digest — exactly what the program ever builds) and a duplicate-free
enumeration, a completed `ChangeTracker.update` tick yields a new
`allitems` mapping in which every stored item again carries its own key
as its `path` field (with keys unique), including re-keyed moved
items. -/
theorem tick_preserves_key_coherence (fs : Fs) (tid : Nat) (S : Snapshot)
    (enum : List String) (hc : Coh S) (hn : NodupKeys S) (hf : FilesHaveHash S)
    (he : enum.Nodup) (r : TickResult) (ht : tick fs tid S enum = some r) :
    Coh r.allitems ∧ NodupKeys r.allitems := by
  obtain ⟨mv, hinv, hall, _, _, _, _, hrem⟩ := tick_analysis hc hn hf he ht
  rw [hall]
  unfold removePhase
  constructor
  · intro kv hkv
    exact hinv.cohA kv (mem_foldl_erasePath hkv)
  · exact List.Nodup.sublist
      (List.Sublist.map Prod.fst (foldl_erasePath_sublist _ _)) hinv.ndA

theorem tick_preserves_key_coherence_witness :
    Coh ([] : Snapshot) ∧ NodupKeys ([] : Snapshot) ∧ FilesHaveHash ([] : Snapshot) ∧
      (["a"] : List String).Nodup ∧
      (Coh (⟨[("a", ⟨"a", some 0, none, some FType.file, some 5, some 10⟩)],
            [("a", ⟨"a", some 0, none, some FType.file, some 5, some 10⟩)],
            [], [], []⟩ : TickResult).allitems ∧
       NodupKeys (⟨[("a", ⟨"a", some 0, none, some FType.file, some 5, some 10⟩)],
            [("a", ⟨"a", some 0, none, some FType.file, some 5, some 10⟩)],
            [], [], []⟩ : TickResult).allitems) :=
  ⟨by unfold Coh; decide, by unfold NodupKeys dkeys; decide,
   by unfold FilesHaveHash; decide, by decide,
   tick_preserves_key_coherence [("a", ⟨FType.file, 5, 10⟩)] 0 [] ["a"]
     (by unfold Coh; decide) (by unfold NodupKeys dkeys; decide)
     (by unfold FilesHaveHash; decide) (by decide)
     ⟨[("a", ⟨"a", some 0, none, some FType.file, some 5, some 10⟩)],
      [("a", ⟨"a", some 0, none, some FType.file, some 5, some 10⟩)],
      [], [], []⟩ (by decide)⟩

/-- C3 counterexample: start from a snapshot holding `a` (a file with
hash 7), let the filesystem hold the same content at `b`.  The first
tick detects the move `a → b`; the second tick over the unchanged
filesystem moves nothing (`moved` is empty), yet the item stored at `b`
still carries `oldpath = some "a"` — `previousPath` is not cleared in a
tick without a move, contradicting the claim. -/
theorem oldpath_persists_after_idle_tick :
    ((tick [("b", ⟨FType.file, 7, 0⟩)] 0
        [("a", ⟨"a", some 0, none, some FType.file, some 7, some 0⟩)] ["b"]).bind
      (fun r1 => tick [("b", ⟨FType.file, 7, 0⟩)] 0 r1.allitems ["b"])).map
        (fun r2 => (r2.moved, (dlookup r2.allitems "b").map TrackedItem.oldpath)) =
      some ([], some (some "a")) := by decide

/-- C3 (amended): the `oldpath` field is set (to the pre-move path)
only when a move is detected and is never cleared afterwards.  After a
completed tick, any item of the new snapshot that is not in this tick's
`moveditems` has the `oldpath` it carried in the previous snapshot
(freshly created items have `oldpath = none`); it is `none` only if the
item has never been moved, not after every move-free tick. -/
theorem tick_oldpath_of_not_moved (fs : Fs) (tid : Nat) (S : Snapshot)
    (enum : List String) (hc : Coh S) (hn : NodupKeys S) (hf : FilesHaveHash S)
    (he : enum.Nodup) (r : TickResult) (ht : tick fs tid S enum = some r)
    (p : String) (it : TrackedItem) (hit : dlookup r.allitems p = some it)
    (hnm : dlookup r.moved p = none) :
    (∃ old, dlookup S p = some old ∧ it.oldpath = old.oldpath) ∨ it.oldpath = none := by
  obtain ⟨mv, hinv, hall, _, _, _, hmoved, hrem⟩ := tick_analysis hc hn hf he ht
  rw [hall] at hit
  have hmv : dlookup mv.allitems p = some it := by
    by_cases hex : ∃ x ∈ dvalues mv.removed, x.path = p
    · unfold removePhase at hit
      rw [foldl_erasePath_mem_none hex] at hit
      cases hit
    · push_neg at hex
      unfold removePhase at hit
      rw [foldl_erasePath_lookup hex] at hit
      exact hit
  rcases hinv.oldA p it hmv with h1 | h1
  · rw [hmoved] at hnm
    rw [hnm] at h1
    simp at h1
  · exact h1

theorem tick_oldpath_of_not_moved_witness :
    Coh ([] : Snapshot) ∧ (["a"] : List String).Nodup ∧
      ((∃ old, dlookup ([] : Snapshot) "a" = some old ∧
          (⟨"a", some 0, none, some FType.file, some 5, some 10⟩ : TrackedItem).oldpath =
            old.oldpath) ∨
        (⟨"a", some 0, none, some FType.file, some 5, some 10⟩ : TrackedItem).oldpath =
          none) :=
  ⟨by unfold Coh; decide, by decide,
   tick_oldpath_of_not_moved [("a", ⟨FType.file, 5, 10⟩)] 0 [] ["a"]
     (by unfold Coh; decide) (by unfold NodupKeys dkeys; decide)
     (by unfold FilesHaveHash; decide) (by decide)
     ⟨[("a", ⟨"a", some 0, none, some FType.file, some 5, some 10⟩)],
      [("a", ⟨"a", some 0, none, some FType.file, some 5, some 10⟩)],
      [], [], []⟩ (by decide)
     "a" ⟨"a", some 0, none, some FType.file, some 5, some 10⟩ (by decide) (by decide)⟩

/-- C5 counterexample: the snapshot holds file `a`, the enumeration
still lists `a`, but every probe fails (the path vanished between
enumeration and probing).  The tick completes with an EMPTY `removed`
set and keeps `a` in the new snapshot as an item with `itemtype =
none` — the vanished item is neither removed that tick nor prevented
from persisting in the `absent` state, contradicting the claim. -/
theorem vanished_item_persists_cex :
    tick ([] : Fs) 0 [("a", ⟨"a", some 0, none, some FType.file, some 1, some 0⟩)]
        ["a"] =
      some ⟨[("a", ⟨"a", some 0, none, none, none, none⟩)], [], [], [], []⟩ := by
  decide

/-- C5 (amended): if a path vanishes between enumeration and probing,
its item resolves to `itemtype = none` with no hash and no modTime, but
it is NOT treated as removed in that tick: the path is absent from the
`removed` event set, the item stays in (or enters) the new snapshot in
the absent state, and a previously unknown vanished path is even
reported in `added`.  It is only removed in a later tick, once the path
stops being enumerated. -/
theorem vanished_path_not_removed_in_tick (fs : Fs) (tid : Nat) (S : Snapshot)
    (enum : List String) (p : String)
    (hc : Coh S) (hn : NodupKeys S) (hf : FilesHaveHash S) (he : enum.Nodup)
    (hp : p ∈ enum) (habs : dlookup fs p = none)
    (r : TickResult) (ht : tick fs tid S enum = some r) :
    (∃ it, dlookup r.allitems p = some it ∧ it.itemtype = none ∧ it.hash = none ∧
      it.modtime = none) ∧
    dlookup r.removed p = none ∧
    (dlookup S p = none → dlookup r.added p = some (mkItem fs tid p)) := by
  obtain ⟨mv, hinv, hall, hadded, hremoved, _, _, hrem⟩ := tick_analysis hc hn hf he ht
  refine ⟨?_, ?_, ?_⟩
  · rw [hall, removePhase_lookup_of_enum hinv hrem hp]
    obtain ⟨it, hit⟩ := Option.isSome_iff_exists.mp (hinv.enumKeep p hp)
    obtain ⟨h1, h2, h3⟩ := hinv.absA p hp habs it hit
    exact ⟨it, hit, h1, h2, h3⟩
  · rw [hremoved]
    cases hv : dlookup mv.removed p with
    | none => rfl
    | some v =>
      exact absurd hp (hrem (p, v) (dlookup_eq_some_mem hv)).2
  · intro hnone
    rw [hadded, hinv.addAbs p hp habs, scan_added_mem he hp]
    have hS : dlookup (⟨S, S, [], []⟩ : ScanState).allitems p = dlookup S p := rfl
    rw [hS, hnone]

theorem vanished_path_not_removed_in_tick_witness :
    Coh ([] : Snapshot) ∧ "a" ∈ (["a"] : List String) ∧
      dlookup ([] : Fs) "a" = none ∧
      ((∃ it, dlookup (⟨[("a", ⟨"a", some 0, none, none, none, none⟩)],
            [("a", ⟨"a", some 0, none, none, none, none⟩)], [], [], []⟩ :
              TickResult).allitems "a" = some it ∧
          it.itemtype = none ∧ it.hash = none ∧ it.modtime = none) ∧
        dlookup (⟨[("a", ⟨"a", some 0, none, none, none, none⟩)],
            [("a", ⟨"a", some 0, none, none, none, none⟩)], [], [], []⟩ :
              TickResult).removed "a" = none ∧
        (dlookup ([] : Snapshot) "a" = none →
          dlookup (⟨[("a", ⟨"a", some 0, none, none, none, none⟩)],
              [("a", ⟨"a", some 0, none, none, none, none⟩)], [], [], []⟩ :
                TickResult).added "a" = some (mkItem ([] : Fs) 0 "a"))) :=
  ⟨by unfold Coh; decide, by decide, by decide,
   vanished_path_not_removed_in_tick ([] : Fs) 0 [] ["a"] "a"
     (by unfold Coh; decide) (by unfold NodupKeys dkeys; decide)
     (by unfold FilesHaveHash; decide) (by decide) (by decide) (by decide)
     ⟨[("a", ⟨"a", some 0, none, none, none, none⟩)],
      [("a", ⟨"a", some 0, none, none, none, none⟩)], [], [], []⟩ (by decide)⟩

theorem tick_of_scan_removed_nil {fs : Fs} {tid : Nat} {A : Snapshot}
    {enum : List String}
    (h : (List.foldl (scanStep fs tid) ⟨A, A, [], []⟩ enum).removed = []) :
    tick fs tid A enum = some
      ⟨removePhase (List.foldl (scanStep fs tid) ⟨A, A, [], []⟩ enum).allitems [],
       (List.foldl (scanStep fs tid) ⟨A, A, [], []⟩ enum).added, [],
       (List.foldl (scanStep fs tid) ⟨A, A, [], []⟩ enum).changed, []⟩ := by
  unfold tick
  simp only [h]
  rfl

/-- C9: Tick idempotence.  Starting from any well-formed snapshot, if a
tick over a fixed filesystem state and duplicate-free enumeration
completes, then a second tick run immediately afterwards over the same
filesystem state and enumeration also completes and reports empty
`added`, `removed`, `changed` and `moved` event sets. -/
theorem tick_idempotent (fs : Fs) (tid : Nat) (S : Snapshot) (enum : List String)
    (hc : Coh S) (hn : NodupKeys S) (hf : FilesHaveHash S) (he : enum.Nodup)
    (r1 : TickResult) (h1 : tick fs tid S enum = some r1) :
    ∃ r2, tick fs tid r1.allitems enum = some r2 ∧
      r2.added = [] ∧ r2.removed = [] ∧ r2.changed = [] ∧ r2.moved = [] := by
  obtain ⟨mv, hinv, hall, _, _, _, _, hrem⟩ := tick_analysis hc hn hf he h1
  have hFAenum : ∀ p ∈ enum, (dlookup r1.allitems p).isSome = true := by
    intro p hp
    rw [hall, removePhase_lookup_of_enum hinv hrem hp]
    exact hinv.enumKeep p hp
  have hFAstable : ∀ p ∈ enum, ∀ it, dlookup r1.allitems p = some it →
      (itemUpdate fs it false true).2 = false := by
    intro p hp it hit
    rw [hall, removePhase_lookup_of_enum hinv hrem hp] at hit
    exact hinv.stableA p it hit hp
  have hFAkeys : ∀ kv ∈ r1.allitems, kv.1 ∈ enum := by
    intro kv hkv
    apply removePhase_keys hinv
    rw [← hall]
    exact dlookup_isSome_of_mem hkv
  have hadded2 : (List.foldl (scanStep fs tid) ⟨r1.allitems, r1.allitems, [], []⟩
      enum).added = [] :=
    scan_added_eq_of_known hFAenum
  have hchanged2 : (List.foldl (scanStep fs tid) ⟨r1.allitems, r1.allitems, [], []⟩
      enum).changed = [] :=
    scan_changed_eq_of_stable he hFAstable
  have hremoved2 : (List.foldl (scanStep fs tid) ⟨r1.allitems, r1.allitems, [], []⟩
      enum).removed = [] := by
    rw [scan_removed_eq]
    refine List.eq_nil_iff_forall_not_mem.mpr ?_
    intro kv hkv
    obtain ⟨hkv1, hkv2⟩ := mem_foldl_derase hkv
    exact hkv2 (hFAkeys kv hkv1)
  exact ⟨_, tick_of_scan_removed_nil hremoved2, hadded2, rfl, hchanged2, rfl⟩

theorem tick_idempotent_witness :
    Coh ([] : Snapshot) ∧ NodupKeys ([] : Snapshot) ∧ FilesHaveHash ([] : Snapshot) ∧
      (["a"] : List String).Nodup ∧
      (∃ r2, tick [("a", ⟨FType.file, 5, 10⟩)] 0
          (⟨[("a", ⟨"a", some 0, none, some FType.file, some 5, some 10⟩)],
            [("a", ⟨"a", some 0, none, some FType.file, some 5, some 10⟩)],
            [], [], []⟩ : TickResult).allitems ["a"] = some r2 ∧
        r2.added = [] ∧ r2.removed = [] ∧ r2.changed = [] ∧ r2.moved = []) :=
  ⟨by unfold Coh; decide, by unfold NodupKeys dkeys; decide,
   by unfold FilesHaveHash; decide, by decide,
   tick_idempotent [("a", ⟨FType.file, 5, 10⟩)] 0 [] ["a"]
     (by unfold Coh; decide) (by unfold NodupKeys dkeys; decide)
     (by unfold FilesHaveHash; decide) (by decide)
     ⟨[("a", ⟨"a", some 0, none, some FType.file, some 5, some 10⟩)],
      [("a", ⟨"a", some 0, none, some FType.file, some 5, some 10⟩)],
      [], [], []⟩ (by decide)⟩

/-- C1 (evaluation at the failing input): two tentatively removed files
`r1` and `r2` share content hash 7 and a single new file `b` with hash
7 is enumerated.  The first loop pass consumes the only matching added
item, but `addedhashes` is never rebuilt, so the second pass still
takes the `hash in addedhashes` branch and evaluates
`[i for i in addeditems.values () if i.hash==removeditem.hash][0]` on
an empty list — an uncaught `IndexError`, modelled as the tick
returning `none` instead of a result. -/
theorem tick_raises_indexerror :
    tick [("b", ⟨FType.file, 7, 0⟩)] 0
        [("r1", ⟨"r1", some 0, none, some FType.file, some 7, some 0⟩),
         ("r2", ⟨"r2", some 0, none, some FType.file, some 7, some 0⟩)] ["b"] =
      none := by
  decide

/-- C2: Move detection.  For every content hash `h` (and whatever
`ct`, `oldpath` and `modtime` the stored item carries): starting from
the snapshot holding exactly the file `a.txt` with hash `h`, a tick
that enumerates only `b.txt`, present on the filesystem with the same
hash `h`, yields exactly one `moved` event for `b.txt` whose item
carries `oldpath = some "a.txt"`, empty `added`, `removed` and
`changed` sets, and a new snapshot mapping `b.txt` (only) to the
relocated item, still a file with hash `h`. -/
theorem move_detection_single (h : Nat) (ct0 : Option Nat) (op : Option String)
    (m : Option Int) (mf : Int) :
    ∃ it, tick [("b.txt", ⟨FType.file, h, mf⟩)] 0
        [("a.txt", ⟨"a.txt", ct0, op, some FType.file, some h, m⟩)] ["b.txt"] =
      some ⟨[("b.txt", it)], [], [], [], [("b.txt", it)]⟩ ∧
      it.path = "b.txt" ∧ it.oldpath = some "a.txt" ∧
      it.itemtype = some FType.file ∧ it.hash = some h := by
  by_cases hlt : py2LtOpt m mf = true
  · refine ⟨⟨"b.txt", ct0, some "a.txt", some FType.file, some h, some mf⟩,
      ?_, rfl, rfl, rfl, rfl⟩
    simp [tick, scanStep, dlookup, mkItem, itemUpdate, fsProbe, fsHash, fsMtimeD,
      dinsert, derase, dvalues, moveLoop, moveStep, itemMove, removePhase,
      scanItem, hlt]
  · refine ⟨⟨"b.txt", ct0, some "a.txt", some FType.file, some h, m⟩,
      ?_, rfl, rfl, rfl, rfl⟩
    simp [tick, scanStep, dlookup, mkItem, itemUpdate, fsProbe, fsHash, fsMtimeD,
      dinsert, derase, dvalues, moveLoop, moveStep, itemMove, removePhase,
      scanItem, hlt]

/-- C4 counterexample: the stored item for file `f` carries
`modtime = 5`, while the filesystem reports `st_mtime = 3`.  A non-init
refresh leaves the stored `modtime` at 5 — `update` does not store the
freshly observed modTime when it is not strictly greater, so the claim
that refresh always recomputes `modTime` from the filesystem fails. -/
theorem refresh_keeps_stale_modtime :
    (itemUpdate [("f", ⟨FType.file, 5, 3⟩)]
        ⟨"f", some 0, none, some FType.file, some 5, some 5⟩ false true).1.modtime =
      some 5 ∧
    fsMtimeD [("f", ⟨FType.file, 5, 3⟩)] "f" = 3 := by
  decide

/-- C4 (amended): a refresh with hashing reads the current `st_mtime`
whenever the path probes as a file, but stores it only on the initial
refresh or when it is strictly greater than the previously stored value
(an absent stored value comparing below every number, Python-2 style);
it returns true exactly when the call is not the initial refresh, the
path probes as a file, and the observed modTime is strictly greater
than the stored one in that ordering. -/
theorem refresh_modtime_characterisation (fs : Fs) (it : TrackedItem) (init : Bool) :
    ((itemUpdate fs it init true).2 = true ↔
      (init = false ∧ fsProbe fs it.path = some FType.file ∧
        py2LtOpt it.modtime (fsMtimeD fs it.path) = true)) ∧
    (itemUpdate fs it init true).1.modtime =
      (if fsProbe fs it.path = some FType.file then
        (if (init || py2LtOpt it.modtime (fsMtimeD fs it.path)) = true then
          some (fsMtimeD fs it.path)
        else it.modtime)
      else none) := by
  constructor
  · rw [itemUpdate_snd_eq]
    simp [and_assoc]
  · exact itemUpdate_modtime_eq fs it init true

theorem readCalls_none (blocks : List Nat) (i : Nat) :
    readCalls none blocks i = (blocks.map HandleOp.readBlock, true) := by
  induction blocks generalizing i with
  | nil => simp [readCalls]
  | cons b rest ih => simp [readCalls, ih]

theorem readCalls_no_close (failAt : Option Nat) (blocks : List Nat) (i : Nat) :
    HandleOp.closed ∉ (readCalls failAt blocks i).1 := by
  induction blocks generalizing i with
  | nil => by_cases hf : failAt = some i <;> simp [readCalls, hf]
  | cons b rest ih =>
    by_cases hf : failAt = some i
    · simp [readCalls, hf]
    · simp only [readCalls, if_neg hf]
      intro hmem
      rcases List.mem_cons.mp hmem with hh | hh
      · cases hh
      · exact ih (i + 1) hh

theorem readCalls_fails (blocks : List Nat) (k i : Nat) (hik : i ≤ k)
    (hk : k ≤ i + blocks.length) :
    (readCalls (some k) blocks i).2 = false := by
  induction blocks generalizing i with
  | nil =>
    have hki : i = k := by
      simp only [List.length_nil, Nat.add_zero] at hk
      omega
    simp [readCalls, hki]
  | cons b rest ih =>
    by_cases hf : i = k
    · simp [readCalls, hf]
    · have hcond : ¬((some k : Option Nat) = some i) := by
        simp only [Option.some.injEq]
        exact fun he => hf he.symm
      simp only [readCalls, if_neg hcond]
      refine ih (i + 1) (by omega) ?_
      simp only [List.length_cons] at hk
      omega

/-- C6 counterexample: hashing a two-block file whose second read call
(index 1) fails.  The trace shows the handle being opened and one block
read, but no close event and no completed loop — the handle is not
released when a read fails partway, and the exception propagates
instead of degrading the item. -/
theorem hashfile_leaks_on_failed_read :
    hashfileTrace [1, 2] (some 1) = ([HandleOp.opened, HandleOp.readBlock 1], false) ∧
      HandleOp.closed ∉ (hashfileTrace [1, 2] (some 1)).1 := by
  constructor
  · decide
  · decide

/-- C6 (amended): within `hashfile` the handle is opened, fully read
and closed only on the success path.  When every read succeeds the
trace is exactly open, all blocks, close; but when any read call up to
the end-of-file read fails, the loop aborts with the exception
propagating (no degradation of the item) and the close event never
happens — the handle leaks from `hashfile`. -/
theorem hashfile_close_iff_no_failure (blocks : List Nat) (failAt : Option Nat) :
    (failAt = none →
      hashfileTrace blocks failAt =
        (HandleOp.opened :: (blocks.map HandleOp.readBlock ++ [HandleOp.closed]),
          true)) ∧
    (∀ k, failAt = some k → k ≤ blocks.length →
      (hashfileTrace blocks failAt).2 = false ∧
        HandleOp.closed ∉ (hashfileTrace blocks failAt).1) := by
  constructor
  · intro hf
    subst hf
    simp [hashfileTrace, readCalls_none]
  · intro k hf hk
    subst hf
    have h2 : (readCalls (some k) blocks 0).2 = false :=
      readCalls_fails blocks k 0 (Nat.zero_le k) (by omega)
    constructor
    · simp [hashfileTrace, h2]
    · simp only [hashfileTrace, h2, Bool.false_eq_true, if_false]
      intro hmem
      rcases List.mem_cons.mp hmem with hh | hh
      · cases hh
      · exact readCalls_no_close (some k) blocks 0 hh

theorem hashfile_close_iff_no_failure_witness :
    (hashfileTrace [5] none =
      (HandleOp.opened :: ([5].map HandleOp.readBlock ++ [HandleOp.closed]), true)) ∧
    ((hashfileTrace [5] (some 0)).2 = false ∧
      HandleOp.closed ∉ (hashfileTrace [5] (some 0)).1) :=
  ⟨(hashfile_close_iff_no_failure [5] none).1 rfl,
   (hashfile_close_iff_no_failure [5] (some 0)).2 0 rfl (by decide)⟩

theorem savestate_go {S : Snapshot} (hc : Coh S) (hn : NodupKeys S) :
    ∀ acc : Snapshot, (∀ k ∈ dkeys S, k ∉ dkeys acc) →
      S.foldl (fun acc kv => dinsert acc kv.2.path (stripItem kv.2)) acc =
        acc ++ S.map (fun kv => (kv.1, stripItem kv.2)) := by
  induction S with
  | nil => intro acc _; simp
  | cons kv rest ih =>
    intro acc hdisj
    rw [List.foldl_cons]
    have hpath : kv.2.path = kv.1 := hc kv (List.mem_cons_self _ _)
    have hnotin : kv.2.path ∉ dkeys acc := by
      rw [hpath]
      exact hdisj kv.1 (by simp [dkeys])
    rw [dinsert_append_of_not_mem hnotin, hpath]
    have hc' : Coh rest := fun x hx => hc x (List.mem_cons_of_mem _ hx)
    have hn' : NodupKeys rest := by
      unfold NodupKeys at hn ⊢
      simp only [dkeys, List.map_cons, List.nodup_cons] at hn
      exact hn.2
    have hdisj' : ∀ k ∈ dkeys rest, k ∉ dkeys (acc ++ [(kv.1, stripItem kv.2)]) := by
      intro k hkrest
      unfold dkeys
      rw [List.map_append, List.mem_append]
      push_neg
      constructor
      · exact hdisj k (by simp [dkeys] at hkrest ⊢; exact Or.inr hkrest)
      · intro hsing
        simp at hsing
        unfold NodupKeys at hn
        simp only [dkeys, List.map_cons, List.nodup_cons] at hn
        exact hn.1 (hsing ▸ hkrest)
    rw [ih hc' hn' (acc ++ [(kv.1, stripItem kv.2)]) hdisj']
    simp

theorem dlookup_map_pair {α β : Type} (S : List (String × α)) (f : α → β) (p : String) :
    dlookup (S.map (fun kv => (kv.1, f kv.2))) p = (dlookup S p).map f := by
  induction S with
  | nil => rfl
  | cons kv rest ih =>
    by_cases hk : kv.1 = p <;> simp [dlookup, hk, ih]

theorem dlookup_loadstateOk (tid : Nat) (d : Snapshot) (p : String) :
    dlookup (loadstateOk tid d) p =
      (dlookup d p).map (fun it => { it with ct := some tid }) := by
  induction d with
  | nil => rfl
  | cons kv rest ih =>
    unfold loadstateOk at ih ⊢
    by_cases hk : kv.1 = p <;> simp [dlookup, hk, ih]

/-- C7: Round trip.  For every key-coherent snapshot with unique keys,
saving and reloading restores at every path an item with identical
`path`, `itemtype`, `hash` and `modtime` (the persisted payload), and
the serialized form carries no back reference to the owning tracker
(every saved item has `ct = none`). -/
theorem savestate_loadstate_roundtrip (S : Snapshot) (tid : Nat)
    (hc : Coh S) (hn : NodupKeys S) :
    (∀ p, optSameData (dlookup (loadstateOk tid (savestate S)) p) (dlookup S p)) ∧
    (∀ kv ∈ savestate S, kv.2.ct = none) := by
  have hsave : savestate S = S.map (fun kv => (kv.1, stripItem kv.2)) := by
    have := savestate_go hc hn [] (by simp [dkeys])
    simpa [savestate] using this
  constructor
  · intro p
    rw [hsave, dlookup_loadstateOk, dlookup_map_pair]
    cases dlookup S p with
    | none => exact trivial
    | some it => simp [optSameData, sameData, stripItem]
  · intro kv hkv
    rw [hsave] at hkv
    obtain ⟨kv0, _, hkv0⟩ := List.mem_map.mp hkv
    rw [← hkv0]
    rfl

theorem savestate_loadstate_roundtrip_witness :
    Coh [("a", ⟨"a", some 3, none, some FType.file, some 7, some 11⟩)] ∧
    NodupKeys ([("a", ⟨"a", some 3, none, some FType.file, some 7, some 11⟩)] :
      Snapshot) ∧
    ((∀ p, optSameData
        (dlookup (loadstateOk 1 (savestate
          [("a", ⟨"a", some 3, none, some FType.file, some 7, some 11⟩)])) p)
        (dlookup [("a", ⟨"a", some 3, none, some FType.file, some 7, some 11⟩)] p)) ∧
      (∀ kv ∈ savestate [("a", ⟨"a", some 3, none, some FType.file, some 7, some 11⟩)],
        kv.2.ct = none)) :=
  ⟨by unfold Coh; decide, by unfold NodupKeys dkeys; decide,
   savestate_loadstate_roundtrip
     [("a", ⟨"a", some 3, none, some FType.file, some 7, some 11⟩)] 1
     (by unfold Coh; decide) (by unfold NodupKeys dkeys; decide)⟩

/-- C8 counterexample: a tracker whose snapshot already holds the item
`a` calls `loadstate` on a missing or unreadable file; the
`except IOError: pass` branch leaves `self.allitems` untouched, so the
resulting snapshot is NOT empty, contradicting the claim that a failed
load yields an empty snapshot regardless of the prior state. -/
theorem loadstate_failure_not_empty_cex :
    loadstateTry 0 [("a", ⟨"a", some 0, none, some FType.file, some 7, some 0⟩)]
        none ≠ ([] : Snapshot) := by
  decide

/-- C8 (amended): when the state file is missing or unreadable,
`loadstate` raises nothing and leaves the snapshot exactly as it was
before the call; the result is empty only if the tracker already held
no items (as at startup), not regardless of the prior state. -/
theorem loadstate_failure_keeps_snapshot (tid : Nat) (prior : Snapshot) :
    loadstateTry tid prior none = prior := rfl

end Changetracker
